import Mathlib

/-!
Verification of the scan/aggregate core of gettext-coverage.

The program (src/gettext_coverage/main.py) scans a root locale directory:
for each immediate entry of the root it looks for a LC_MESSAGES
subdirectory, collects the set of filenames ending in .mo (suffix
stripped) as package names, and for each package counts in how many of the
locale directories a catalog file named <package>.mo is present, emitting
one record per package with a coverage percentage.

We embed the directory tree as explicit data: the root either is or is not
a directory, and carries a list of immediate entries, each entry paired
with the LC_MESSAGES subdirectory it contains (if any).  A LC_MESSAGES
directory records whether listing it succeeds (os.listdir raises
PermissionError on an unreadable directory) and the list of names inside.
The scan function `scanLocalePackages` is a line-by-line translation of
`_scan_locale_packages` (main.py lines 48-79); a raised exception is
modelled as `Except.error ()`.
-/

/-- A LC_MESSAGES directory: `readable` is whether `os.listdir` succeeds on
it (false models a directory whose listing raises PermissionError), and
`entries` is the list of names it contains. -/
structure LCDir where
  readable : Bool
  entries : List String
deriving DecidableEq

/-- The tree rooted at the locale directory (/usr/share/locale).
`rootIsDir` is the value of `os.path.isdir` on the root; `locales` holds
the immediate entries of the root in directory-listing order, each name
paired with `some lc` exactly when `<name>/LC_MESSAGES` is a directory,
and with `none` when the entry is a plain file or a directory without a
LC_MESSAGES subdirectory. -/
structure LocaleTree where
  rootIsDir : Bool
  locales : List (String × Option LCDir)
deriving DecidableEq

/-- One element of the `results` list built by `_scan_locale_packages`
(main.py lines 73-78): the dict with keys package, languages,
total_locales and coverage. -/
structure PkgRecord where
  package : String
  languages : Nat
  total_locales : Nat
  coverage : ℚ
deriving DecidableEq

/-- Test `mo_file.endswith(".mo")` (main.py line 59): the last three
characters are `.mo`. -/
def endsWithMo (f : String) : Bool :=
  f.data.drop (f.data.length - 3) == ['.', 'm', 'o']

/-- The slice `mo_file[:-3]` (main.py line 60): drop the last three
characters. -/
def stripMo (f : String) : String :=
  ⟨f.data.take (f.data.length - 3)⟩

/-- The filename `f"{pkg}.mo"` (main.py line 70). -/
def moName (pkg : String) : String :=
  pkg ++ ".mo"

/-- Code-point lexicographic order on character lists: the order Python
uses to compare strings (and hence the order of `sorted` on line 63). -/
def dataLt : List Char → List Char → Bool
  | [], [] => false
  | [], _ :: _ => true
  | _ :: _, [] => false
  | a :: as, b :: bs => if a < b then true else if b < a then false else dataLt as bs

/-- Code-point lexicographic order on strings. -/
def strLt (a b : String) : Bool :=
  dataLt a.data b.data

/-- Insert a package name into the sorted duplicate-free list representing
the set `packages` (main.py line 55, consumed via `sorted(packages)` on
line 63): `packages.add` on a set followed by sorting is modelled by
keeping the list sorted and duplicate-free throughout. -/
def insertPkg (x : String) : List String → List String
  | [] => [x]
  | y :: ys =>
    if x = y then y :: ys
    else if strLt x y then x :: y :: ys
    else y :: insertPkg x ys

/-- The inner loop of lines 58-60: for each name in a LC_MESSAGES listing,
if it ends in .mo, add the stripped name to the package set. -/
def addMoFiles : List String → List String → List String
  | [], acc => acc
  | f :: fs, acc => addMoFiles fs (if endsWithMo f then insertPkg (stripMo f) acc else acc)

/-- One iteration of the discovery loop (lines 56-60): an entry without a
LC_MESSAGES directory is skipped; listing an unreadable LC_MESSAGES raises
(error absorbs the rest of the computation, as an uncaught Python
exception does); otherwise the .mo names are added to the set. -/
def scanStep (acc : Except Unit (List String)) (e : String × Option LCDir) :
    Except Unit (List String) :=
  match acc, e.2 with
  | .error u, _ => .error u
  | .ok pkgs, none => .ok pkgs
  | .ok pkgs, some lc => if lc.readable then .ok (addMoFiles lc.entries pkgs) else .error ()

/-- The discovery phase (lines 55-61): fold the step over the root
listing, starting from the empty package set. -/
def collectPackages (ls : List (String × Option LCDir)) : Except Unit (List String) :=
  ls.foldl scanStep (.ok [])

/-- The counter `langs_total` (lines 66-68): the number of root entries
whose LC_MESSAGES path is a directory. -/
def countTotal (ls : List (String × Option LCDir)) : Nat :=
  ls.countP fun e => e.2.isSome

/-- Whether one root entry contributes to `langs_with` for a package
(lines 69-71): it has a LC_MESSAGES directory containing `<pkg>.mo`. -/
def hasCatalog (pkg : String) (e : String × Option LCDir) : Bool :=
  match e.2 with
  | some lc => lc.entries.contains (moName pkg)
  | none => false

/-- The counter `langs_with` (lines 69-71). -/
def countWith (pkg : String) (ls : List (String × Option LCDir)) : Nat :=
  ls.countP (hasCatalog pkg)

/-- Round a rational to the nearest integer, ties to even: the behaviour
of Python's builtin `round`. -/
def roundHalfEven (q : ℚ) : ℤ :=
  if q - ⌊q⌋ < 1 / 2 then ⌊q⌋
  else if 1 / 2 < q - ⌊q⌋ then ⌊q⌋ + 1
  else if ⌊q⌋ % 2 = 0 then ⌊q⌋ else ⌊q⌋ + 1

/-- Python `round(x, 1)` (line 77): round to one decimal place. -/
def round1 (q : ℚ) : ℚ :=
  (roundHalfEven (q * 10) : ℚ) / 10

/-- The body of the per-package loop (lines 64-78): recount the locales,
and append a record only when `langs_total > 0`. -/
def mkRecord (ls : List (String × Option LCDir)) (pkg : String) : Option PkgRecord :=
  if 0 < countTotal ls then
    some { package := pkg
           languages := countWith pkg ls
           total_locales := countTotal ls
           coverage := round1 ((countWith pkg ls : ℚ) / (countTotal ls : ℚ) * 100) }
  else none

/-- The aggregation phase (lines 63-78): one pass over the sorted package
set, appending a record per package when `langs_total > 0`. -/
def buildRecords (ls : List (String × Option LCDir)) (pkgs : List String) : List PkgRecord :=
  pkgs.filterMap (mkRecord ls)

/-- Translation of `_scan_locale_packages` (main.py lines 48-79).  A
missing or non-directory root returns the empty result list (line 52); a
PermissionError raised while listing a LC_MESSAGES directory escapes the
function, modelled as `.error ()`. -/
def scanLocalePackages (t : LocaleTree) : Except Unit (List PkgRecord) :=
  if t.rootIsDir then
    match collectPackages t.locales with
    | .error u => .error u
    | .ok pkgs => .ok (buildRecords t.locales pkgs)
  else .ok []

/-- A cell of the exported CSV: the Python csv writer receives strings,
ints and floats and writes each value verbatim. -/
inductive Cell where
  | s : String → Cell
  | n : Nat → Cell
  | q : ℚ → Cell
deriving DecidableEq

/-- Translation of the writing loop of `_on_export_done` (main.py lines
249-253): the header row followed by one row per record, each row holding
the package, languages, total_locales and coverage fields in that
order. -/
def exportCSV (ps : List PkgRecord) : List (List Cell) :=
  [Cell.s "Package", Cell.s "Languages", Cell.s "Total Locales", Cell.s "Coverage %"] ::
    ps.map fun p => [Cell.s p.package, Cell.n p.languages, Cell.n p.total_locales,
      Cell.q p.coverage]

/-- Whether an entry makes the discovery loop raise: a LC_MESSAGES
directory whose listing fails. -/
def badEntry (e : String × Option LCDir) : Bool :=
  match e.2 with
  | some lc => !lc.readable
  | none => false

/-- The spec's universe of package names: a name obtained by stripping the
.mo suffix from some filename of some LC_MESSAGES subdirectory found under
the root (spec section 4.1 step 3).  When the root is missing or not a
directory the scan finds no LC_MESSAGES subdirectory, so the union is
empty. -/
def specPackage (t : LocaleTree) (name : String) : Bool :=
  t.rootIsDir && t.locales.any fun e =>
    match e.2 with
    | some lc => lc.entries.any fun f => endsWithMo f && (stripMo f == name)
    | none => false

/-- Scenario A of the spec: en/LC_MESSAGES/app.mo, sv/LC_MESSAGES empty,
fr without LC_MESSAGES. -/
def treeA : LocaleTree :=
  ⟨true, [("en", some ⟨true, ["app.mo"]⟩), ("sv", some ⟨true, []⟩), ("fr", none)]⟩

/-- Scenario B of the spec: the root path is not a directory. -/
def treeB : LocaleTree :=
  ⟨false, [("en", some ⟨true, ["app.mo"]⟩)]⟩

/-- Scenario C of the spec: locale de has a LC_MESSAGES directory whose
listing raises PermissionError, locale en is readable and holds one
catalog. -/
def treeC : LocaleTree :=
  ⟨true, [("de", some ⟨false, []⟩), ("en", some ⟨true, ["app.mo"]⟩)]⟩

/-- The same tree as `treeA` with the root entries listed in a different
order. -/
def treeA' : LocaleTree :=
  ⟨true, [("fr", none), ("sv", some ⟨true, []⟩), ("en", some ⟨true, ["app.mo"]⟩)]⟩

/-- The record the scan produces for package app on `treeA`. -/
def recA : PkgRecord :=
  ⟨"app", 1, 2, round1 ((1 : ℚ) / (2 : ℚ) * 100)⟩

/-! Order lemmas for the code-point lexicographic order. -/

theorem dataLt_irrefl (l : List Char) : dataLt l l = false := by
  induction l with
  | nil => rfl
  | cons a as ih => simp [dataLt, ih]

theorem dataLt_trans {a b c : List Char} (h₁ : dataLt a b = true)
    (h₂ : dataLt b c = true) : dataLt a c = true := by
  induction a generalizing b c with
  | nil =>
    cases b with
    | nil => simp [dataLt] at h₁
    | cons y ys =>
      cases c with
      | nil => simp [dataLt] at h₂
      | cons z zs => simp [dataLt]
  | cons x xs ih =>
    cases b with
    | nil => simp [dataLt] at h₁
    | cons y ys =>
      cases c with
      | nil => simp [dataLt] at h₂
      | cons z zs =>
        by_cases hxy : x < y
        · by_cases hyz : y < z
          · simp [dataLt, lt_trans hxy hyz]
          · by_cases hzy : z < y
            · simp [dataLt, hyz, hzy] at h₂
            · have hEq : y = z := le_antisymm (not_lt.mp hzy) (not_lt.mp hyz)
              subst hEq
              simp [dataLt, hxy]
        · by_cases hyx : y < x
          · simp [dataLt, hxy, hyx] at h₁
          · have hEq : x = y := le_antisymm (not_lt.mp hyx) (not_lt.mp hxy)
            subst hEq
            simp only [dataLt, if_neg hxy, if_neg hyx] at h₁
            by_cases hxz : x < z
            · simp [dataLt, hxz]
            · by_cases hzx : z < x
              · simp [dataLt, hxz, hzx] at h₂
              · simp only [dataLt, if_neg hxz, if_neg hzx] at h₂ ⊢
                exact ih h₁ h₂

theorem dataLt_conn {a b : List Char} (h₁ : dataLt a b = false)
    (h₂ : dataLt b a = false) : a = b := by
  induction a generalizing b with
  | nil =>
    cases b with
    | nil => rfl
    | cons y ys => simp [dataLt] at h₁
  | cons x xs ih =>
    cases b with
    | nil => simp [dataLt] at h₂
    | cons y ys =>
      by_cases hxy : x < y
      · simp [dataLt, hxy] at h₁
      · by_cases hyx : y < x
        · simp [dataLt, hyx] at h₂
        · have hEq : x = y := le_antisymm (not_lt.mp hyx) (not_lt.mp hxy)
          subst hEq
          simp only [dataLt, if_neg hxy, if_neg hyx] at h₁ h₂
          rw [ih h₁ h₂]

theorem strLt_irrefl (a : String) : strLt a a = false :=
  dataLt_irrefl a.data

theorem strLt_trans {a b c : String} (h₁ : strLt a b = true)
    (h₂ : strLt b c = true) : strLt a c = true :=
  dataLt_trans h₁ h₂

theorem strLt_conn {a b : String} (h₁ : strLt a b = false)
    (h₂ : strLt b a = false) : a = b :=
  String.ext (dataLt_conn h₁ h₂)

theorem strLt_asymm {a b : String} (h : strLt a b = true) : strLt b a = false := by
  cases hba : strLt b a with
  | false => rfl
  | true => exact absurd (strLt_trans h hba) (by simp [strLt_irrefl])

instance : IsIrrefl String (fun a b => strLt a b = true) :=
  ⟨fun a h => by simp [strLt_irrefl] at h⟩

instance : IsTrans String (fun a b => strLt a b = true) :=
  ⟨fun _ _ _ => strLt_trans⟩

instance : IsAntisymm String (fun a b => strLt a b = true) :=
  ⟨fun _ _ h₁ h₂ => by simp [strLt_asymm h₂] at h₁⟩

/-! Lemmas about the sorted package-set representation. -/

theorem insertPkg_cons (x y : String) (ys : List String) :
    insertPkg x (y :: ys) =
      if x = y then y :: ys
      else if strLt x y then x :: y :: ys
      else y :: insertPkg x ys := rfl

theorem mem_insertPkg {a x : String} {l : List String} :
    a ∈ insertPkg x l ↔ a = x ∨ a ∈ l := by
  induction l with
  | nil => simp [insertPkg]
  | cons y ys ih =>
    rw [insertPkg_cons]
    by_cases hxy : x = y
    · subst hxy
      rw [if_pos rfl]
      simp only [List.mem_cons]
      tauto
    · rw [if_neg hxy]
      by_cases hlt : strLt x y
      · rw [if_pos hlt]
        simp only [List.mem_cons]
      · rw [if_neg hlt]
        simp only [List.mem_cons, ih]
        tauto

theorem sorted_insertPkg {x : String} {l : List String}
    (h : List.Sorted (fun a b => strLt a b = true) l) :
    List.Sorted (fun a b => strLt a b = true) (insertPkg x l) := by
  induction l with
  | nil => simp [insertPkg]
  | cons y ys ih =>
    rw [List.sorted_cons] at h
    obtain ⟨hy, hys⟩ := h
    rw [insertPkg_cons]
    by_cases hxy : x = y
    · subst hxy
      rw [if_pos rfl]
      exact List.sorted_cons.mpr ⟨hy, hys⟩
    · rw [if_neg hxy]
      by_cases hlt : strLt x y
      · rw [if_pos hlt]
        refine List.sorted_cons.mpr ⟨?_, List.sorted_cons.mpr ⟨hy, hys⟩⟩
        intro b hb
        rcases List.mem_cons.mp hb with rfl | hb
        · exact hlt
        · exact strLt_trans hlt (hy b hb)
      · have hlt' : strLt x y = false := by simpa using hlt
        have hyx : strLt y x = true := by
          cases hyx : strLt y x with
          | true => rfl
          | false => exact absurd (strLt_conn hlt' hyx) hxy
        rw [if_neg hlt]
        refine List.sorted_cons.mpr ⟨?_, ih hys⟩
        intro b hb
        rcases mem_insertPkg.mp hb with rfl | hb
        · exact hyx
        · exact hy b hb

theorem mem_addMoFiles {a : String} {fs acc : List String} :
    a ∈ addMoFiles fs acc ↔
      (∃ f ∈ fs, endsWithMo f = true ∧ stripMo f = a) ∨ a ∈ acc := by
  induction fs generalizing acc with
  | nil => simp [addMoFiles]
  | cons f fs ih =>
    show a ∈ addMoFiles fs (if endsWithMo f then insertPkg (stripMo f) acc else acc) ↔ _
    by_cases hf : endsWithMo f
    · rw [if_pos hf, ih]
      simp only [mem_insertPkg, List.mem_cons]
      constructor
      · rintro (⟨g, hg, h1, h2⟩ | rfl | h)
        · exact Or.inl ⟨g, Or.inr hg, h1, h2⟩
        · exact Or.inl ⟨f, Or.inl rfl, hf, rfl⟩
        · exact Or.inr h
      · rintro (⟨g, rfl | hg, h1, h2⟩ | h)
        · exact Or.inr (Or.inl h2.symm)
        · exact Or.inl ⟨g, hg, h1, h2⟩
        · exact Or.inr (Or.inr h)
    · rw [if_neg hf, ih]
      have hf' : endsWithMo f = false := by simpa using hf
      simp only [List.mem_cons]
      constructor
      · rintro (⟨g, hg, h1, h2⟩ | h)
        · exact Or.inl ⟨g, Or.inr hg, h1, h2⟩
        · exact Or.inr h
      · rintro (⟨g, rfl | hg, h1, h2⟩ | h)
        · rw [hf'] at h1
          exact absurd h1 (by simp)
        · exact Or.inl ⟨g, hg, h1, h2⟩
        · exact Or.inr h

theorem sorted_addMoFiles {fs acc : List String}
    (h : List.Sorted (fun a b => strLt a b = true) acc) :
    List.Sorted (fun a b => strLt a b = true) (addMoFiles fs acc) := by
  induction fs generalizing acc with
  | nil => exact h
  | cons f fs ih =>
    show List.Sorted _ (addMoFiles fs (if endsWithMo f then insertPkg (stripMo f) acc else acc))
    by_cases hf : endsWithMo f
    · rw [if_pos hf]
      exact ih (sorted_insertPkg h)
    · rw [if_neg hf]
      exact ih h

/-! Lemmas about the discovery fold. -/

theorem scanStep_error (u : Unit) (e : String × Option LCDir) :
    scanStep (.error u) e = .error u := rfl

theorem scanStep_ok_none {pkgs : List String} {e : String × Option LCDir}
    (he : e.2 = none) : scanStep (.ok pkgs) e = .ok pkgs := by
  unfold scanStep
  rw [he]

theorem scanStep_ok_some {pkgs : List String} {e : String × Option LCDir} {lc : LCDir}
    (he : e.2 = some lc) :
    scanStep (.ok pkgs) e =
      if lc.readable then .ok (addMoFiles lc.entries pkgs) else .error () := by
  unfold scanStep
  rw [he]

theorem foldl_scanStep_error (ls : List (String × Option LCDir)) (u : Unit) :
    ls.foldl scanStep (.error u) = .error u := by
  induction ls with
  | nil => rfl
  | cons e es ih => rw [List.foldl_cons, scanStep_error, ih]

/-- Characterization of the names produced by the discovery phase: a name
is in a successful result exactly when it is in the accumulator already or
is obtained by stripping .mo from a filename of some listed LC_MESSAGES
directory. -/
theorem foldl_scanStep_ok_mem {ls : List (String × Option LCDir)} {acc out : List String}
    (h : ls.foldl scanStep (.ok acc) = .ok out) (a : String) :
    a ∈ out ↔ a ∈ acc ∨ ∃ e ∈ ls, ∃ lc, e.2 = some lc ∧
      ∃ f ∈ lc.entries, endsWithMo f = true ∧ stripMo f = a := by
  induction ls generalizing acc with
  | nil =>
    rw [List.foldl_nil] at h
    cases h
    simp
  | cons e es ih =>
    rw [List.foldl_cons] at h
    cases he : e.2 with
    | none =>
      rw [scanStep_ok_none he] at h
      rw [ih h]
      simp only [List.mem_cons]
      constructor
      · rintro (h | ⟨e', he', rest⟩)
        · exact Or.inl h
        · exact Or.inr ⟨e', Or.inr he', rest⟩
      · rintro (h | ⟨e', rfl | he', lc, hlc, rest⟩)
        · exact Or.inl h
        · rw [he] at hlc
          cases hlc
        · exact Or.inr ⟨e', he', lc, hlc, rest⟩
    | some lc =>
      rw [scanStep_ok_some he] at h
      by_cases hr : lc.readable
      · rw [if_pos hr] at h
        rw [ih h, mem_addMoFiles]
        simp only [List.mem_cons]
        constructor
        · rintro ((⟨f, hf, h1, h2⟩ | h) | ⟨e', he', rest⟩)
          · exact Or.inr ⟨e, Or.inl rfl, lc, he, f, hf, h1, h2⟩
          · exact Or.inl h
          · exact Or.inr ⟨e', Or.inr he', rest⟩
        · rintro (h | ⟨e', rfl | he', lc', hlc', f, hf, h1, h2⟩)
          · exact Or.inl (Or.inr h)
          · rw [he] at hlc'
            cases hlc'
            exact Or.inl (Or.inl ⟨f, hf, h1, h2⟩)
          · exact Or.inr ⟨e', he', lc', hlc', f, hf, h1, h2⟩
      · rw [if_neg hr, foldl_scanStep_error] at h
        cases h

theorem foldl_scanStep_ok_sorted {ls : List (String × Option LCDir)} {acc out : List String}
    (h : ls.foldl scanStep (.ok acc) = .ok out)
    (hacc : List.Sorted (fun a b => strLt a b = true) acc) :
    List.Sorted (fun a b => strLt a b = true) out := by
  induction ls generalizing acc with
  | nil =>
    rw [List.foldl_nil] at h
    cases h
    exact hacc
  | cons e es ih =>
    rw [List.foldl_cons] at h
    cases he : e.2 with
    | none =>
      rw [scanStep_ok_none he] at h
      exact ih h hacc
    | some lc =>
      rw [scanStep_ok_some he] at h
      by_cases hr : lc.readable
      · rw [if_pos hr] at h
        exact ih h (sorted_addMoFiles hacc)
      · rw [if_neg hr, foldl_scanStep_error] at h
        cases h

/-- The discovery phase raises exactly when some listed entry has an
unreadable LC_MESSAGES directory. -/
theorem foldl_scanStep_error_iff {ls : List (String × Option LCDir)} {acc : List String} :
    ls.foldl scanStep (.ok acc) = .error () ↔ ∃ e ∈ ls, badEntry e = true := by
  induction ls generalizing acc with
  | nil => simp [List.foldl_nil]
  | cons e es ih =>
    rw [List.foldl_cons]
    cases he : e.2 with
    | none =>
      rw [scanStep_ok_none he]
      rw [ih]
      simp only [List.mem_cons]
      constructor
      · rintro ⟨e', he', hbad⟩
        exact ⟨e', Or.inr he', hbad⟩
      · rintro ⟨e', rfl | he', hbad⟩
        · rw [badEntry, he] at hbad
          cases hbad
        · exact ⟨e', he', hbad⟩
    | some lc =>
      rw [scanStep_ok_some he]
      by_cases hr : lc.readable
      · rw [if_pos hr, ih]
        simp only [List.mem_cons]
        constructor
        · rintro ⟨e', he', hbad⟩
          exact ⟨e', Or.inr he', hbad⟩
        · rintro ⟨e', rfl | he', hbad⟩
          · simp [badEntry, he, hr] at hbad
          · exact ⟨e', he', hbad⟩
      · have hr' : lc.readable = false := by simpa using hr
        rw [if_neg hr, foldl_scanStep_error]
        simp only [List.mem_cons]
        constructor
        · intro
          refine ⟨e, Or.inl rfl, ?_⟩
          simp [badEntry, he, hr']
        · intro
          trivial

theorem contains_iff_mem {a : String} {l : List String} :
    l.contains a = true ↔ a ∈ l := by
  rw [List.contains, List.elem_iff]

/-- The .mo suffix test and strip are inverted by appending the suffix
back: a filename passing the test is `<stripped name>.mo`. -/
theorem moName_stripMo {f : String} (h : endsWithMo f = true) :
    moName (stripMo f) = f := by
  apply String.ext
  have hd : f.data.drop (f.data.length - 3) = ['.', 'm', 'o'] := by
    simpa [endsWithMo] using h
  show ((⟨f.data.take (f.data.length - 3)⟩ : String) ++ ".mo").data = f.data
  rw [String.data_append]
  show f.data.take (f.data.length - 3) ++ ['.', 'm', 'o'] = f.data
  rw [← hd, List.take_append_drop]

/-! Lemmas about the aggregation phase. -/

theorem mkRecord_eq_some {ls : List (String × Option LCDir)} {pkg : String} {r : PkgRecord}
    (h : mkRecord ls pkg = some r) :
    0 < countTotal ls ∧ r.package = pkg ∧ r.languages = countWith pkg ls ∧
      r.total_locales = countTotal ls ∧
      r.coverage = round1 ((countWith pkg ls : ℚ) / (countTotal ls : ℚ) * 100) := by
  unfold mkRecord at h
  by_cases ht : 0 < countTotal ls
  · rw [if_pos ht] at h
    cases h
    exact ⟨ht, rfl, rfl, rfl, rfl⟩
  · rw [if_neg ht] at h
    cases h

theorem mkRecord_pos {ls : List (String × Option LCDir)} {pkg : String}
    (h : 0 < countTotal ls) :
    mkRecord ls pkg =
      some { package := pkg
             languages := countWith pkg ls
             total_locales := countTotal ls
             coverage := round1 ((countWith pkg ls : ℚ) / (countTotal ls : ℚ) * 100) } := by
  unfold mkRecord
  rw [if_pos h]

theorem mkRecord_zero {ls : List (String × Option LCDir)} {pkg : String}
    (h : countTotal ls = 0) : mkRecord ls pkg = none := by
  unfold mkRecord
  rw [if_neg (by rw [h]; exact lt_irrefl 0)]

theorem mem_buildRecords {ls : List (String × Option LCDir)} {pkgs : List String}
    {r : PkgRecord} :
    r ∈ buildRecords ls pkgs ↔ ∃ pkg ∈ pkgs, mkRecord ls pkg = some r :=
  List.mem_filterMap

theorem map_package_buildRecords {ls : List (String × Option LCDir)} {pkgs : List String}
    (h : 0 < countTotal ls) :
    (buildRecords ls pkgs).map PkgRecord.package = pkgs := by
  induction pkgs with
  | nil => rfl
  | cons p ps ih =>
    rw [buildRecords, List.filterMap_cons, mkRecord_pos h]
    rw [buildRecords] at ih
    simp only [List.map_cons, ih]

theorem buildRecords_total_zero {ls : List (String × Option LCDir)} {pkgs : List String}
    (h : countTotal ls = 0) : buildRecords ls pkgs = [] := by
  rw [buildRecords, List.filterMap_eq_nil_iff]
  intro pkg _
  exact mkRecord_zero h

/-- If the two counters agree on two listings, the record built for every
package agrees too. -/
theorem mkRecord_ext {ls₁ ls₂ : List (String × Option LCDir)}
    (h₁ : countTotal ls₁ = countTotal ls₂)
    (h₂ : ∀ pkg, countWith pkg ls₁ = countWith pkg ls₂) (pkg : String) :
    mkRecord ls₁ pkg = mkRecord ls₂ pkg := by
  unfold mkRecord
  rw [h₁, h₂]

theorem countWith_le_countTotal (pkg : String) (ls : List (String × Option LCDir)) :
    countWith pkg ls ≤ countTotal ls := by
  refine List.countP_mono_left fun e _ h => ?_
  cases he : e.2 with
  | none => simp [hasCatalog, he] at h
  | some lc => simp [he]

/-- Case analysis on a successful scan: either the root is not a
directory and the result is empty, or the root is a directory, discovery
succeeded, and the result is the aggregation of the discovered names. -/
theorem scan_ok_cases {t : LocaleTree} {rs : List PkgRecord}
    (h : scanLocalePackages t = .ok rs) :
    (t.rootIsDir = false ∧ rs = []) ∨
      (t.rootIsDir = true ∧ ∃ pkgs, collectPackages t.locales = .ok pkgs ∧
        rs = buildRecords t.locales pkgs) := by
  unfold scanLocalePackages at h
  cases hd : t.rootIsDir with
  | false =>
    rw [hd] at h
    simp only [Bool.false_eq_true, if_false] at h
    cases h
    exact Or.inl ⟨rfl, rfl⟩
  | true =>
    rw [hd] at h
    simp only [if_true] at h
    cases hc : collectPackages t.locales with
    | error u => rw [hc] at h; cases h
    | ok pkgs =>
      rw [hc] at h
      cases h
      exact Or.inr ⟨rfl, pkgs, rfl, rfl⟩

/-- Rewriting of the spec-side package universe as an existential. -/
theorem specPackage_iff {t : LocaleTree} {name : String} :
    specPackage t name = true ↔
      t.rootIsDir = true ∧ ∃ e ∈ t.locales, ∃ lc, e.2 = some lc ∧
        ∃ f ∈ lc.entries, endsWithMo f = true ∧ stripMo f = name := by
  unfold specPackage
  rw [Bool.and_eq_true, List.any_eq_true]
  refine and_congr Iff.rfl ?_
  constructor
  · rintro ⟨e, he, hm⟩
    cases hlc : e.2 with
    | none => rw [hlc] at hm; cases hm
    | some lc =>
      rw [hlc] at hm
      rw [List.any_eq_true] at hm
      obtain ⟨f, hf, hfm⟩ := hm
      rw [Bool.and_eq_true, beq_iff_eq] at hfm
      exact ⟨e, he, lc, hlc, f, hf, hfm.1, hfm.2⟩
  · rintro ⟨e, he, lc, hlc, f, hf, h1, h2⟩
    refine ⟨e, he, ?_⟩
    rw [hlc, List.any_eq_true]
    exact ⟨f, hf, by rw [Bool.and_eq_true, beq_iff_eq]; exact ⟨h1, h2⟩⟩

/-! Unfolding helpers for the scan and concrete sample trees. -/

theorem scan_root_false {t : LocaleTree} (h : t.rootIsDir = false) :
    scanLocalePackages t = .ok [] := by
  unfold scanLocalePackages
  rw [h]
  simp

theorem scan_root_true {t : LocaleTree} (h : t.rootIsDir = true) :
    scanLocalePackages t =
      match collectPackages t.locales with
      | .error u => .error u
      | .ok pkgs => .ok (buildRecords t.locales pkgs) := by
  unfold scanLocalePackages
  rw [h]
  simp

theorem scan_treeA : scanLocalePackages treeA = .ok [recA] := rfl

theorem recA_coverage : recA.coverage = 50 := by
  show round1 ((1 : ℚ) / (2 : ℚ) * 100) = 50
  norm_num [round1, roundHalfEven]

/-! The claims. -/

/-- C1: every record emitted by the scan has total_locales_scanned
positive — so no record is emitted for a package when the count of
scanned locales is zero — and its coverage equals
languages_with_translation / total_locales_scanned * 100 rounded to one
decimal place. -/
theorem C1_coverage_formula (t : LocaleTree) (rs : List PkgRecord) (r : PkgRecord)
    (hok : scanLocalePackages t = .ok rs) (hr : r ∈ rs) :
    0 < r.total_locales ∧
      r.coverage = round1 ((r.languages : ℚ) / (r.total_locales : ℚ) * 100) := by
  rcases scan_ok_cases hok with ⟨_, rfl⟩ | ⟨_, pkgs, hc, rfl⟩
  · cases hr
  · obtain ⟨pkg, hpkg, hmk⟩ := mem_buildRecords.mp hr
    obtain ⟨ht, hpk, hlang, htot, hcov⟩ := mkRecord_eq_some hmk
    refine ⟨htot ▸ ht, ?_⟩
    rw [hcov, hlang, htot]

theorem C1_coverage_formula_witness :
    0 < recA.total_locales ∧
      recA.coverage = round1 ((recA.languages : ℚ) / (recA.total_locales : ℚ) * 100) :=
  C1_coverage_formula treeA [recA] recA scan_treeA (by simp)

/-- C2: the claim that a permission error while listing a LC_MESSAGES
directory is not propagated fails on the code.  On `treeC` — where locale
de has an unreadable LC_MESSAGES directory and locale en readably holds
app.mo — `os.listdir` raises PermissionError inside the discovery loop of
`_scan_locale_packages` (line 58) with no surrounding try/except, so the
scan aborts with the error instead of completing and returning the record
for package app; in particular it returns no records at all. -/
theorem C2_permission_error_propagates :
    scanLocalePackages treeC = .error () ∧ ∀ rs, scanLocalePackages treeC ≠ .ok rs :=
  ⟨rfl, fun _ h => Except.noConfusion h⟩

/-- C5: when the root locale directory does not exist or is not a
directory, the scan returns the empty result list and raises nothing. -/
theorem C5_missing_root (t : LocaleTree) (h : t.rootIsDir = false) :
    scanLocalePackages t = .ok [] :=
  scan_root_false h

theorem C5_missing_root_witness : scanLocalePackages treeB = .ok [] :=
  C5_missing_root treeB rfl

/-- C6: every record emitted by the scan satisfies
0 ≤ languages_with_translation ≤ total_locales_scanned; both counts are
natural numbers in the embedding, matching the non-negative-integer
requirement. -/
theorem C6_languages_le_total (t : LocaleTree) (rs : List PkgRecord) (r : PkgRecord)
    (hok : scanLocalePackages t = .ok rs) (hr : r ∈ rs) :
    0 ≤ r.languages ∧ r.languages ≤ r.total_locales := by
  rcases scan_ok_cases hok with ⟨_, rfl⟩ | ⟨_, pkgs, hc, rfl⟩
  · cases hr
  · obtain ⟨pkg, hpkg, hmk⟩ := mem_buildRecords.mp hr
    obtain ⟨ht, hpk, hlang, htot, _⟩ := mkRecord_eq_some hmk
    refine ⟨Nat.zero_le _, ?_⟩
    rw [hlang, htot]
    exact countWith_le_countTotal pkg t.locales

theorem C6_languages_le_total_witness :
    0 ≤ recA.languages ∧ recA.languages ≤ recA.total_locales :=
  C6_languages_le_total treeA [recA] recA scan_treeA (by simp)

/-- C3: a package name appears in a successful scan's result exactly when
some LC_MESSAGES subdirectory found under the root lists a filename equal
to the name with the .mo suffix appended (case-sensitive, no
normalization), and the result carries exactly one record per package
name (its package projection is duplicate-free). -/
theorem C3_package_universe (t : LocaleTree) (rs : List PkgRecord)
    (hok : scanLocalePackages t = .ok rs) (name : String) :
    ((∃ r ∈ rs, r.package = name) ↔ specPackage t name = true) ∧
      (rs.map PkgRecord.package).Nodup := by
  rcases scan_ok_cases hok with ⟨hd, rfl⟩ | ⟨hd, pkgs, hc, rfl⟩
  · constructor
    · simp [specPackage, hd]
    · simp
  · unfold collectPackages at hc
    have hsorted := foldl_scanStep_ok_sorted hc (by simp)
    by_cases ht : 0 < countTotal t.locales
    · have hmap : (buildRecords t.locales pkgs).map PkgRecord.package = pkgs :=
        map_package_buildRecords ht
      constructor
      · have hmem : name ∈ pkgs ↔ ∃ e ∈ t.locales, ∃ lc, e.2 = some lc ∧
            ∃ f ∈ lc.entries, endsWithMo f = true ∧ stripMo f = name := by
          rw [foldl_scanStep_ok_mem hc name]
          simp
        constructor
        · rintro ⟨r, hr, rfl⟩
          obtain ⟨pkg, hpkg, hmk⟩ := mem_buildRecords.mp hr
          obtain ⟨-, hpk, -, -, -⟩ := mkRecord_eq_some hmk
          rw [← hpk] at hpkg
          exact specPackage_iff.mpr ⟨hd, hmem.mp hpkg⟩
        · intro hs
          obtain ⟨-, hex⟩ := specPackage_iff.mp hs
          have hn : name ∈ pkgs := hmem.mpr hex
          have : name ∈ (buildRecords t.locales pkgs).map PkgRecord.package := by
            rw [hmap]; exact hn
          obtain ⟨r, hr, hpk⟩ := List.mem_map.mp this
          exact ⟨r, hr, hpk⟩
      · rw [hmap]
        exact hsorted.nodup
    · have ht0 : countTotal t.locales = 0 := Nat.eq_zero_of_not_pos ht
      rw [buildRecords_total_zero ht0]
      constructor
      · simp only [List.not_mem_nil, false_and, exists_false, false_iff]
        intro hs
        obtain ⟨-, e, he, lc, hlc, -⟩ := specPackage_iff.mp hs
        have := List.countP_eq_zero.mp ht0 e he
        rw [hlc] at this
        simp at this
      · simp

theorem C3_package_universe_witness :
    ((∃ r ∈ [recA], r.package = "app") ↔ specPackage treeA "app" = true) ∧
      (([recA].map PkgRecord.package)).Nodup :=
  C3_package_universe treeA [recA] scan_treeA "app"

/-- C9: a successful scan's records are sorted strictly ascending in
code-point lexicographic order of package name, with no duplicate
package names; the spec leaves the ordering unspecified, the code sorts
via `sorted(packages)` on line 63. -/
theorem C9_sorted_by_package (t : LocaleTree) (rs : List PkgRecord)
    (hok : scanLocalePackages t = .ok rs) :
    List.Sorted (fun a b => strLt a b = true) (rs.map PkgRecord.package) ∧
      (rs.map PkgRecord.package).Nodup := by
  have hs : List.Sorted (fun a b => strLt a b = true) (rs.map PkgRecord.package) := by
    rcases scan_ok_cases hok with ⟨hd, rfl⟩ | ⟨hd, pkgs, hc, rfl⟩
    · simp
    · unfold collectPackages at hc
      by_cases ht : 0 < countTotal t.locales
      · rw [map_package_buildRecords ht]
        exact foldl_scanStep_ok_sorted hc (by simp)
      · rw [buildRecords_total_zero (Nat.eq_zero_of_not_pos ht)]
        simp
  exact ⟨hs, hs.nodup⟩

theorem C9_sorted_by_package_witness :
    List.Sorted (fun a b => strLt a b = true) ([recA].map PkgRecord.package) ∧
      (([recA].map PkgRecord.package)).Nodup :=
  C9_sorted_by_package treeA [recA] scan_treeA

/-- C10: when every directory listing succeeds (the scan completes), every
emitted record reports at least one translated locale — the package
entered the universe because its catalog exists in some scanned
LC_MESSAGES subdirectory — and hence at least one scanned locale. -/
theorem C10_at_least_one_language (t : LocaleTree) (rs : List PkgRecord) (r : PkgRecord)
    (hok : scanLocalePackages t = .ok rs) (hr : r ∈ rs) :
    1 ≤ r.languages ∧ 1 ≤ r.total_locales := by
  rcases scan_ok_cases hok with ⟨_, rfl⟩ | ⟨_, pkgs, hc, rfl⟩
  · cases hr
  · obtain ⟨pkg, hpkg, hmk⟩ := mem_buildRecords.mp hr
    obtain ⟨ht, hpk, hlang, htot, _⟩ := mkRecord_eq_some hmk
    unfold collectPackages at hc
    have hmem := (foldl_scanStep_ok_mem hc pkg).mp hpkg
    rcases hmem with h | ⟨e, he, lc, hlc, f, hf, h1, h2⟩
    · cases h
    · have hcat : hasCatalog pkg e = true := by
        unfold hasCatalog
        rw [hlc, contains_iff_mem, ← h2, moName_stripMo h1]
        exact hf
      have hpos : 0 < countWith pkg t.locales := by
        unfold countWith
        rw [List.countP_pos_iff]
        exact ⟨e, he, hcat⟩
      constructor
      · rw [hlang]; exact hpos
      · rw [htot]; exact le_trans hpos (countWith_le_countTotal pkg t.locales)

theorem C10_at_least_one_language_witness :
    1 ≤ recA.languages ∧ 1 ≤ recA.total_locales :=
  C10_at_least_one_language treeA [recA] recA scan_treeA (by simp)

/-- C4: every record of a successful scan carries, as total_locales, the
number of immediate root entries containing a LC_MESSAGES directory (the
same number whatever the package), and a candidate entry without a
LC_MESSAGES directory can be inserted or removed anywhere in the root
listing without changing the scan at all — it contributes neither to the
count nor to package discovery. -/
theorem C4_total_locales_count (t : LocaleTree) (rs : List PkgRecord) (r : PkgRecord)
    (hok : scanLocalePackages t = .ok rs) (hr : r ∈ rs)
    (n : String) (pre post : List (String × Option LCDir)) :
    r.total_locales = countTotal t.locales ∧
      scanLocalePackages ⟨true, pre ++ (n, none) :: post⟩ =
        scanLocalePackages ⟨true, pre ++ post⟩ := by
  constructor
  · rcases scan_ok_cases hok with ⟨_, rfl⟩ | ⟨_, pkgs, hc, rfl⟩
    · cases hr
    · obtain ⟨pkg, _, hmk⟩ := mem_buildRecords.mp hr
      exact (mkRecord_eq_some hmk).2.2.2.1
  · have hstep : ∀ acc, scanStep acc (n, none) = acc := fun acc => by
      cases acc with
      | error u => rfl
      | ok pkgs => exact scanStep_ok_none rfl
    have hcollect : collectPackages (pre ++ (n, none) :: post) =
        collectPackages (pre ++ post) := by
      unfold collectPackages
      rw [List.foldl_append, List.foldl_append, List.foldl_cons, hstep]
    have hTot : countTotal (pre ++ (n, none) :: post) = countTotal (pre ++ post) := by
      unfold countTotal
      rw [List.countP_append, List.countP_append, List.countP_cons]
      simp
    have hWith : ∀ pkg, countWith pkg (pre ++ (n, none) :: post) =
        countWith pkg (pre ++ post) := fun pkg => by
      unfold countWith
      rw [List.countP_append, List.countP_append, List.countP_cons]
      simp [hasCatalog]
    rw [scan_root_true rfl, scan_root_true rfl]
    show (match collectPackages (pre ++ (n, none) :: post) with
          | Except.error u => Except.error u
          | Except.ok pkgs => Except.ok (buildRecords (pre ++ (n, none) :: post) pkgs)) = _
    rw [hcollect]
    cases hc : collectPackages (pre ++ post) with
    | error u => rfl
    | ok pkgs =>
      show Except.ok (buildRecords (pre ++ (n, none) :: post) pkgs) =
        Except.ok (buildRecords (pre ++ post) pkgs)
      rw [buildRecords, buildRecords,
        List.filterMap_congr fun pkg _ => mkRecord_ext hTot hWith pkg]

theorem C4_total_locales_count_witness :
    recA.total_locales = countTotal treeA.locales ∧
      scanLocalePackages ⟨true, [] ++ ("fr", none) :: []⟩ =
        scanLocalePackages ⟨true, [] ++ []⟩ :=
  C4_total_locales_count treeA [recA] recA scan_treeA (by simp) "fr" [] []

/-- C7: the scan is a pure function of the tree contents — beyond
scanning the same unchanged tree twice yielding equal results, even a
permutation of the order in which the root's entries are listed leaves
the result unchanged (so two runs agree as unordered sets of records,
and in fact as sequences). -/
theorem C7_scan_deterministic (t₁ t₂ : LocaleTree)
    (hroot : t₁.rootIsDir = t₂.rootIsDir) (hperm : t₁.locales.Perm t₂.locales) :
    scanLocalePackages t₁ = scanLocalePackages t₂ := by
  cases hd : t₂.rootIsDir with
  | false => rw [scan_root_false (by rw [hroot, hd]), scan_root_false hd]
  | true =>
    rw [scan_root_true (by rw [hroot, hd]), scan_root_true hd]
    have herr : collectPackages t₁.locales = .error () ↔
        collectPackages t₂.locales = .error () := by
      unfold collectPackages
      rw [foldl_scanStep_error_iff, foldl_scanStep_error_iff]
      constructor
      · rintro ⟨e, he, hbad⟩
        exact ⟨e, hperm.mem_iff.mp he, hbad⟩
      · rintro ⟨e, he, hbad⟩
        exact ⟨e, hperm.mem_iff.mpr he, hbad⟩
    cases h₁ : collectPackages t₁.locales with
    | error u =>
      cases u
      rw [herr.mp h₁]
    | ok pkgs₁ =>
      cases h₂ : collectPackages t₂.locales with
      | error u =>
        cases u
        have hcontra := herr.mpr h₂
        rw [h₁] at hcontra
        cases hcontra
      | ok pkgs₂ =>
        unfold collectPackages at h₁ h₂
        have hs₁ := foldl_scanStep_ok_sorted h₁ (by simp)
        have hs₂ := foldl_scanStep_ok_sorted h₂ (by simp)
        have hp : pkgs₁ = pkgs₂ := by
          refine List.eq_of_perm_of_sorted ?_ hs₁ hs₂
          rw [List.perm_ext_iff_of_nodup hs₁.nodup hs₂.nodup]
          intro a
          rw [foldl_scanStep_ok_mem h₁ a, foldl_scanStep_ok_mem h₂ a]
          simp only [List.not_mem_nil, false_or]
          constructor
          · rintro ⟨e, he, rest⟩
            exact ⟨e, hperm.mem_iff.mp he, rest⟩
          · rintro ⟨e, he, rest⟩
            exact ⟨e, hperm.mem_iff.mpr he, rest⟩
        subst hp
        have hbuild : buildRecords t₁.locales pkgs₁ = buildRecords t₂.locales pkgs₁ := by
          rw [buildRecords, buildRecords]
          refine List.filterMap_congr fun pkg _ => mkRecord_ext ?_ ?_ pkg
          · unfold countTotal
            exact hperm.countP_eq _
          · intro pkg'
            unfold countWith
            exact hperm.countP_eq _
        show Except.ok (buildRecords t₁.locales pkgs₁) =
          Except.ok (buildRecords t₂.locales pkgs₁)
        rw [hbuild]

theorem C7_scan_deterministic_witness :
    scanLocalePackages treeA = scanLocalePackages treeA' :=
  C7_scan_deterministic treeA treeA' rfl (by decide)

/-- C8: the CSV export consists of the header row
Package,Languages,Total Locales,Coverage % followed by exactly one row
per record, each row listing the record's package, languages,
total_locales and coverage values verbatim in that order. -/
theorem C8_export_rows (ps : List PkgRecord) :
    (exportCSV ps).length = ps.length + 1 ∧
      (exportCSV ps)[0]? = some [Cell.s "Package", Cell.s "Languages",
        Cell.s "Total Locales", Cell.s "Coverage %"] ∧
      ∀ i (h : i < ps.length),
        (exportCSV ps)[i + 1]? = some [Cell.s ps[i].package, Cell.n ps[i].languages,
          Cell.n ps[i].total_locales, Cell.q ps[i].coverage] := by
  refine ⟨by simp [exportCSV], by rw [exportCSV, List.getElem?_cons_zero], ?_⟩
  intro i h
  rw [exportCSV, List.getElem?_cons_succ, List.getElem?_map, List.getElem?_eq_getElem h]
  rfl

theorem C8_export_rows_witness :
    (exportCSV [recA]).length = 1 + 1 ∧
      (exportCSV [recA])[0]? = some [Cell.s "Package", Cell.s "Languages",
        Cell.s "Total Locales", Cell.s "Coverage %"] ∧
      (exportCSV [recA])[1]? = some [Cell.s recA.package, Cell.n recA.languages,
        Cell.n recA.total_locales, Cell.q recA.coverage] := by
  obtain ⟨h₁, h₂, h₃⟩ := C8_export_rows [recA]
  exact ⟨by simpa using h₁, h₂, by simpa using h₃ 0 (by simp)⟩
